import Mathlib

/-!
Verification development for the poker equity package (src/equity/equity.go).

The Go code is shallowly embedded: uint32 card values and table entries become
Nat (with the one place where uint32 wrap-around matters, the subtraction in
evalHands, modelled explicitly modulo 2 ^ 32); float64 equity shares become
exact rationals; Go strings become Lean String; the package-level immutable
ranking table hr (an externally loaded array of 32,487,834 uint32 entries)
becomes an explicit function parameter named hr in each evaluator; Go slice
indexing that can go out of range on reachable inputs is modelled with Option
(none standing for the runtime panic), while the fixed-size buffer accesses of
the evaluators, which are always in range on the inputs the claims quantify
over, use getD.

The collaborator package poker/comb is part of the repository but not part of
src/, so it is modelled from the specification where noted.
-/

/-- Constant ranks of equity.go: the thirteen rank characters in ascending order. -/
def ranks : String := "23456789TJQKA"

/-- Constant suits of equity.go: the four suit characters. -/
def suits : String := "cdhs"

/-- The key-value pairs inserted into the package map CTOI by init: for rank
index i and suit index j (both zero-based, in loop order) the two-character
card string gets the value k = i * 4 + j + 1, reproducing the running counter
k of the init loop; cards are therefore numbered 1..52, rank-major. -/
def ctoiPairs : List (String × Nat) :=
  (List.range 13).flatMap (fun i =>
    (List.range 4).map (fun j =>
      (String.mk [ranks.data.getD i ' ', suits.data.getD j ' '], i * 4 + j + 1)))

/-- Lookup in the CTOI map. A Go map read for a missing key yields the zero
value of the element type, so an unknown card string maps to 0. -/
def CTOI (s : String) : Nat :=
  ((ctoiPairs.find? (fun p => p.1 == s)).map Prod.snd).getD 0

/-- cardsToInts of equity.go: convert each card string through the CTOI map. -/
def cardsToInts (cards : List String) : List Nat :=
  cards.map CTOI

/-- minus of equity.go: stable filter of a removing every element equal to
some element of b. -/
def minus (a b : List Nat) : List Nat :=
  a.filter (fun v => !(b.contains v))

/-- NewDeck of equity.go: the deck 1..52 with the missing cards removed
(the filter is skipped entirely when the missing list is empty). -/
def NewDeck (missing : List Nat) : List Nat :=
  let deck := (List.range 52).map (fun i => i + 1)
  if missing.length > 0 then minus deck missing else deck

/-- HandDist of equity.go: a symbolic hand-distribution token such as AA, AKo
or AKs, stored as its string. -/
structure HandDist where
  Dist : String

/-- HandDist.Strs of equity.go: expand the token into the list of concrete
two-card hands (as card strings). The three cases follow the Go switch: a
two-character token is a pair (suit index pairs i < j), a token whose third
character is the letter o is offsuit (all i, j with i not equal to j), and any
other third character is suited (equal suit indices). -/
def HandDist.Strs (this : HandDist) : List (List String) :=
  let d := this.Dist.data
  let xs := suits.data.map (fun s => String.mk [d.getD 0 ' ', s])
  let ys := suits.data.map (fun s => String.mk [d.getD 1 ' ', s])
  if d.length = 2 then
    (List.range 3).flatMap (fun i =>
      ((List.range 4).drop (i + 1)).map (fun j => [xs.getD i "", xs.getD j ""]))
  else if d.getD 2 ' ' = 'o' then
    (List.range 4).flatMap (fun i =>
      ((List.range 4).filter (fun j => j ≠ i)).map (fun j => [xs.getD i "", ys.getD j ""]))
  else
    (List.range 4).map (fun i => [xs.getD i "", ys.getD i ""])

/-- HandDist.Ints of equity.go: the same hands as card integers. -/
def HandDist.Ints (this : HandDist) : List (List Nat) :=
  this.Strs.map cardsToInts

/-- evalBoard of equity.go: fold the five board cards through the ranking
table from base offset 53. The Go code indexes cards[0] through cards[4] on a
five-element slice; the claims only apply it to five-card boards, where getD
coincides with that indexing. -/
def evalBoard (hr : Nat → Nat) (cards : List Nat) : Nat :=
  let v1 := hr (53 + cards.getD 0 0)
  let v2 := hr (v1 + cards.getD 1 0)
  let v3 := hr (v2 + cards.getD 2 0)
  let v4 := hr (v3 + cards.getD 3 0)
  hr (v4 + cards.getD 4 0)

/-- evalHand of equity.go: fold the two hole cards into a pre-folded board
state b; the last lookup is terminal. -/
def evalHand (hr : Nat → Nat) (b : Nat) (cards : List Nat) : Nat :=
  hr (hr (b + cards.getD 0 0) + cards.getD 1 0)

/-- EvalHand of equity.go: the single seven-lookup chain over a seven-card
hand given as card strings. -/
def EvalHand (hr : Nat → Nat) (cards : List String) : Nat :=
  let hand := cardsToInts cards
  let v1 := hr (53 + hand.getD 0 0)
  let v2 := hr (v1 + hand.getD 1 0)
  let v3 := hr (v2 + hand.getD 2 0)
  let v4 := hr (v3 + hand.getD 3 0)
  let v5 := hr (v4 + hand.getD 4 0)
  let v6 := hr (v5 + hand.getD 5 0)
  hr (v6 + hand.getD 6 0)

/-- Go uint32 subtraction: for a, b < 2 ^ 32 this is exactly the wrap-around
difference computed by the expression a - b on uint32 operands. -/
def sub32 (a b : Nat) : Nat :=
  (a + 2 ^ 32 - b) % 2 ^ 32

/-- evalHands of equity.go: the pot shares of the hands against the board.
The two-hand branch compares the two ranks by uint32 subtraction: result is
a uint32, so the comparison result < 0 is identically false, exactly as in
the Go source (where it also can never hold). The general branch scans for
the maximal rank and the number of winners starting from vals[0] (Go panics
on an empty hand list; the claims only concern non-empty lists, and headD
stands in for the vals[0] access). Pot shares are modelled as exact
rationals in place of float64. -/
def evalHands (hr : Nat → Nat) (board : List Nat) (hands : List (List Nat)) : List ℚ :=
  let b := evalBoard hr board
  if hands.length = 2 then
    let result := sub32 (evalHand hr b (hands.getD 0 []))
                        (evalHand hr b (hands.getD 1 []))
    if result > 0 then [1, 0]
    else if result < 0 then [0, 1]
    else [1/2, 1/2]
  else
    let vals := hands.map (evalHand hr b)
    let mw := vals.tail.foldl
      (fun (p : Nat × Nat) v =>
        if v > p.1 then (v, 1) else if v = p.1 then (p.1, p.2 + 1) else p)
      (vals.headD 0, 1)
    vals.map (fun v => if v = mw.1 then (1 : ℚ) / (mw.2 : ℚ) else 0)

/-- A concrete ranking table used to evaluate the evaluators at specific
inputs: entry i holds i. All entries touched by the examples below are far
below 2 ^ 32, so it is a legitimate instance of the externally loaded uint32
table. -/
def sampleTable : Nat → Nat := fun i => i

/-- Modelled from the spec: comb.Generator from the collaborator package
poker/comb (part of the repository but not under src/). It produces every
k-combination of the item sequence exactly once, duplicate-free and lazily,
in an order the spec leaves to the generator; we fix the order produced by
List.sublistsLen. Each call of the generator closure fills the caller buffer
with the next combination and returns a boolean that is false exactly when
the combination just delivered is the last one, signalling exhaustion; this
is the convention under which both consumption loops of equity.go (the
count-driven loop of PHole and the flag-driven loops of HandEquity) visit
each combination once. -/
def genCombs {α : Type} (k : Nat) (l : List α) : List (List α) :=
  List.sublistsLen k l

/-- Modelled from the spec: comb.Count, the closed-form count of
k-combinations of an n-element sequence. -/
def combCount (n k : Nat) : Nat :=
  Nat.choose n k

/-- The match test of intersect in equity.go, for one candidate pair: the Go
expression (v[0] == w[0] and v[1] == w[1]) or (v[0] == w[1] and v[1] == w[0])
with its left-to-right, short-circuit evaluation order. Every slice index is
a bounds-checked access: an out-of-range index panics, modelled by none. -/
def handMatch (v w : List Nat) : Option Bool :=
  match v.get? 0, w.get? 0 with
  | some v0, some w0 =>
    if v0 = w0 then
      match v.get? 1, w.get? 1 with
      | some v1, some w1 =>
        if v1 = w1 then some true
        else some ((v0 == w1) && (v1 == w0))
      | _, _ => none
    else
      match w.get? 1 with
      | some w1 =>
        if v0 = w1 then
          match v.get? 1 with
          | some v1 => some (v1 == w0)
          | none => none
        else some false
      | none => none
  | _, _ => none

/-- The inner loop of intersect in equity.go: scan b for the first hand
matching v (the Go loop breaks at the first match). -/
def findMatchIn (v : List Nat) : List (List Nat) → Option Bool
  | [] => some false
  | w :: ws =>
    match handMatch v w with
    | none => none
    | some true => some true
    | some false => findMatchIn v ws

/-- intersect of equity.go: collect, in order, every element of a that
matches some element of b (order-independent two-card equality); none models
the index-out-of-range panic of the Go code. -/
def intersectGo : List (List Nat) → List (List Nat) → Option (List (List Nat))
  | [], _ => some []
  | v :: vs, b =>
    match findMatchIn v b with
    | none => none
    | some m =>
      match intersectGo vs b with
      | none => none
      | some rest => some (if m then v :: rest else rest)

/-- PHole of equity.go. The Go code allocates allHands as a slice of combs
nil inner slices and then runs the combination generator, copying each
generated hand into allHands[i]; since copy into a nil slice copies nothing,
every element of allHands remains nil whatever the generator yields, which
the model renders as combs copies of the empty list. The final expression
divides the intersection size by the allHands length (float64 division,
modelled on rationals); none models a panic inside intersect. -/
def PHole (scards : List String) (hd : HandDist) : Option ℚ :=
  let cards := cardsToInts scards
  let deck := NewDeck cards
  let combs := combCount deck.length 2
  let allHands : List (List Nat) := List.replicate combs []
  let hands := hd.Ints
  (intersectGo hands allHands).map
    (fun inter => (inter.length : ℚ) / (allHands.length : ℚ))

/-- Lottery of equity.go: parallel cumulative-probability and prize-label
sequences (float64 probabilities modelled as rationals). -/
structure Lottery where
  probs : List ℚ
  prizes : List String

/-- The construction loop of NewLottery in equity.go, with the running sum
threaded explicitly: entries are consumed in iteration order, zero-weight
entries are skipped, and each kept entry appends the updated running sum and
its label. -/
def newLotteryAux (sum : ℚ) : List (String × ℚ) → Lottery
  | [] => Lottery.mk [] []
  | (key, val) :: rest =>
    if val ≠ 0 then
      let l := newLotteryAux (sum + val) rest
      Lottery.mk ((sum + val) :: l.probs) (key :: l.prizes)
    else newLotteryAux sum rest

/-- NewLottery of equity.go. A Go map has no specified iteration order, so the
model takes the distribution as the list of entries in the order iterated. -/
def NewLottery (dist : List (String × ℚ)) : Lottery :=
  newLotteryAux 0 dist

/-- The scan loop of Lottery.Play in equity.go, with the running index i
explicit: return the prize of the first cumulative probability exceeding the
draw; when the scan falls through, return prizes[len(prizes)-1]. Both prize
accesses are modelled with get?, whose none value stands for the
index-out-of-range panic (which the Go code hits when prizes is empty). -/
def playLoop (draw : ℚ) (prizes : List String) : Nat → List ℚ → Option String
  | _, [] => prizes.get? (prizes.length - 1)
  | i, p :: ps => if draw < p then prizes.get? i else playLoop draw prizes (i + 1) ps

/-- Lottery.Play of equity.go, for a given uniform draw (the Go code draws
rand.Float64() in [0,1); the model takes the draw as a parameter). -/
def Lottery.Play (l : Lottery) (draw : ℚ) : Option String :=
  playLoop draw l.prizes 0 l.probs

/-- The inner enumeration loop of the exhaustive branch of HandEquity in
equity.go, entered with its flag loop2 true. The argument list holds the
board completions the inner generator has yet to deliver; the state is the
running equity sum, the trial counter and the five-card board buffer. Each
iteration first calls the generator (writing the next completion into
board[bLen:], or leaving the buffer stale and returning false when nothing
is left), then adds evalHands(board, hole, oHole)[0] and increments the
counter; the loop exits once the generator has signalled exhaustion, so on
an empty completion list the body still runs once on the stale buffer. Every
exit leaves loop2 false. -/
def heInner (hr : Nat → Nat) (hole oHole : List Nat) (bLen : Nat) :
    List (List Nat) → ℚ × Nat × List Nat → ℚ × Nat × List Nat
  | [], (s, n, buf) =>
    (s + (evalHands hr buf [hole, oHole]).headD 0, n + 1, buf)
  | [comp], (s, n, buf) =>
    let buf2 := buf.take bLen ++ comp
    (s + (evalHands hr buf2 [hole, oHole]).headD 0, n + 1, buf2)
  | comp :: comp2 :: rest, (s, n, buf) =>
    let buf2 := buf.take bLen ++ comp
    heInner hr hole oHole bLen (comp2 :: rest)
      (s + (evalHands hr buf2 [hole, oHole]).headD 0, n + 1, buf2)

/-- The outer enumeration loop of the exhaustive branch of HandEquity in
equity.go over the opponent hands. The flag loop2 is the one declared once
before both loops in the Go code: it starts true, every pass through the
inner loop leaves it false, and it is never reset, so after the first
opponent hand the inner loop body never runs again. -/
def heOuter (hr : Nat → Nat) (hole : List Nat) (bLen : Nat) (deck : List Nat) :
    List (List Nat) → Bool → ℚ × Nat × List Nat → ℚ × Nat × List Nat
  | [], _, st => st
  | o :: os, loop2, st =>
    heOuter hr hole bLen deck os false
      (if loop2 then heInner hr hole o bLen (genCombs (5 - bLen) (minus deck o)) st else st)

/-- The exhaustive (trials = 0) branch of HandEquity in equity.go, up to the
final division: convert the hole and board card strings, pad the five-card
board buffer with zeroes, remove the hole and buffer cards from the deck,
and run the nested enumeration. Returns the final (sum, count, buffer)
state. -/
def heRun (hr : Nat → Nat) (sHand sBoard : List String) : ℚ × Nat × List Nat :=
  let hole := cardsToInts sHand
  let bLen := sBoard.length
  let board := sBoard.map CTOI ++ List.replicate (5 - bLen) 0
  let deck := NewDeck (hole ++ board)
  heOuter hr hole bLen deck (genCombs 2 deck) true (0, 0, board)

/-- The value HandEquity sends on its channel in the exhaustive case:
sum / count. -/
def HandEquityExhaustive (hr : Nat → Nat) (sHand sBoard : List String) : ℚ :=
  let st := heRun hr sHand sBoard
  st.1 / (st.2.1 : ℚ)

/-- The trial count the claimed exhaustive enumeration would perform: one
trial per opponent hand per completion of the board from the deck minus that
opponent hand. -/
def heSpecTrials (deck : List Nat) (bLen : Nat) : Nat :=
  ((genCombs 2 deck).map (fun o => (genCombs (5 - bLen) (minus deck o)).length)).sum

/-- The trial-budget adjustment of HandEquity2 in equity.go:
trials += trials % NCPU. -/
def he2Rounded (trials ncpu : Nat) : Nat :=
  trials + trials % ncpu

/-- The per-worker trial count of HandEquity2: each of the NCPU goroutines
runs HandEquity with trials / NCPU Monte-Carlo iterations (after the
adjustment above). -/
def he2PerWorker (trials ncpu : Nat) : Nat :=
  he2Rounded trials ncpu / ncpu

/-- The realized total trial count of HandEquity2: worker count times the
per-worker share. -/
def he2Realized (trials ncpu : Nat) : Nat :=
  ncpu * he2PerWorker trials ncpu

/-- Order-independent equality of two-card hands: a hand matches another when
its two cards equal the other hand in either order. -/
def sameHand (a b : List String) : Bool :=
  a == b || a == b.reverse

/-- True when no hand of the list denotes the same unordered hand as another
one appearing later, i.e. no hand appears twice in the list. -/
def noRepeatedHand : List (List String) → Bool
  | [] => true
  | h :: t => t.all (fun k => !(sameHand h k)) && noRepeatedHand t

set_option maxRecDepth 40000

example : evalBoard sampleTable [1, 2, 3, 4, 5] = 68 := by decide
example : evalHand sampleTable 68 [6, 7] = 81 := by decide
example : evalHands sampleTable [1, 2, 3, 4, 5] [[8, 9], [6, 7]] = [1, 0] := rfl
example : evalHands sampleTable [1, 2, 3, 4, 5] [[6, 7], [6, 7]] = [1/2, 1/2] := rfl
example : CTOI "2c" = 1 ∧ CTOI "As" = 52 ∧ CTOI "Zz" = 0 := by decide
example : he2Realized 5 3 = 6 := by decide
example : he2Realized 6 3 = 6 := by decide
example : (NewLottery [("a", (1 : ℚ)), ("b", (1 : ℚ))]).prizes = ["a", "b"] := rfl

lemma listLen2 {α : Type} {l : List α} (h : l.length = 2) :
    ∃ a b, l = [a, b] :=
  List.length_eq_two.mp h

lemma listLen5 {α : Type} {l : List α} (h : l.length = 5) :
    ∃ a b c d e, l = [a, b, c, d, e] := by
  obtain ⟨a, t1, rfl⟩ := List.exists_of_length_succ _ h
  rw [List.length_cons] at h
  have h1 : t1.length = 4 := by omega
  obtain ⟨b, t2, rfl⟩ := List.exists_of_length_succ _ h1
  rw [List.length_cons] at h1
  have h2 : t2.length = 3 := by omega
  obtain ⟨c, t3, rfl⟩ := List.exists_of_length_succ _ h2
  rw [List.length_cons] at h2
  have h3 : t3.length = 2 := by omega
  obtain ⟨d, e, rfl⟩ := listLen2 h3
  exact ⟨a, b, c, d, e, rfl⟩

/-- C1: the claim states that on a five-card board with exactly two two-card
hands, evalHands compares the two ranks and returns [1,0] for a strictly
greater first rank, [0,1] for a strictly smaller one, and [0.5,0.5] for equal
ranks. The code computes the difference of the two uint32 ranks as a uint32,
so whenever the ranks differ the wrapped difference is positive and the
result is [1,0]; the branch for [0,1] is unreachable. This theorem evaluates
the code at a table and input on which the first rank is strictly smaller
than the second, yet the returned shares are [1,0] instead of the claimed
[0,1]. -/
theorem evalHands_two_hand_loser_takes_pot :
    evalHand sampleTable (evalBoard sampleTable [1, 2, 3, 4, 5]) [6, 7] <
      evalHand sampleTable (evalBoard sampleTable [1, 2, 3, 4, 5]) [8, 9] ∧
    evalHands sampleTable [1, 2, 3, 4, 5] [[6, 7], [8, 9]] = [1, 0] :=
  ⟨by decide, rfl⟩

/-- C5: the claim states that every maximal-rank hand receives 1/W (W the
number of maximal hands) and every other hand receives 0. For exactly two
hands the code takes the uint32-subtraction fast path, and when the first
rank is strictly smaller than the second the unique maximal hand (the
second) receives 0 while the non-maximal first hand receives the whole pot:
the code returns [1,0] where the claim requires [0,1]. -/
theorem evalHands_maximal_hand_receives_zero :
    evalHand sampleTable (evalBoard sampleTable [1, 2, 3, 4, 5]) [6, 7] <
      evalHand sampleTable (evalBoard sampleTable [1, 2, 3, 4, 5]) [10, 11] ∧
    evalHands sampleTable [1, 2, 3, 4, 5] [[6, 7], [10, 11]] = [1, 0] :=
  ⟨by decide, rfl⟩

/-- C2: the claim states that the exhaustive branch of HandEquity enumerates
every two-card opponent hand and, for each, every completion of the board,
accumulating one trial per combination. In the code the inner-loop flag
loop2 is declared once outside both loops and never reset, so board
completions are enumerated only for the first opponent hand the generator
yields; for every later opponent hand the inner loop body runs zero times.
At a full five-card board the deck minus the known cards has 45 cards: the
claimed enumeration performs one trial per opponent hand, 990 = C(45,2) in
total, while the code performs exactly 1 trial. -/
theorem handEquity_exhaustive_first_opponent_only :
    (heRun sampleTable ["2c", "2d"] ["2h", "2s", "3c", "3d", "3h"]).2.1 = 1 ∧
    heSpecTrials
      (NewDeck (cardsToInts ["2c", "2d"] ++ cardsToInts ["2h", "2s", "3c", "3d", "3h"]))
      5 = 990 ∧
    combCount 45 2 = 990 :=
  ⟨by decide, by decide, by decide⟩

/-- C3: the claim states that PHole returns matchCount / allHandsCount, in
particular 6/1326 for no visible cards and the token AA. The code never
fills allHands: each generated combination is copied into a nil inner slice
(a copy into a nil slice copies nothing), so intersect indexes w[0] on a nil
slice and panics. Evaluating the model at the claimed concrete input yields
none (the panic) rather than any number. -/
theorem pHole_preflop_pair_panics :
    PHole [] (HandDist.mk "AA") = none :=
  rfl

/-- C4 counterexample: the claim states HandEquity2 rounds the requested
trials up, never down. With 4 requested trials and 3 workers the code
computes 4 + 4 % 3 = 5 and gives each worker 5 / 3 = 1 trial, realizing
3 * 1 = 3 trials, strictly fewer than requested. -/
theorem he2Realized_rounds_down :
    he2Realized 4 3 = 3 ∧ 3 < 4 :=
  ⟨by decide, by decide⟩

/-- C4 (amended): the realized total trial count of HandEquity2 is always a
multiple of the worker count (each worker runs an equal integer share), and
it differs from the requested count by at most workerCount - 1 in either
direction: it equals trials - trials % n + n (rounding up) when
2 * (trials % n) is at least n, and trials - trials % n (rounding down)
otherwise. -/
theorem he2Realized_characterization (t n : Nat) (hn : 0 < n) :
    he2Realized t n % n = 0 ∧
    he2Realized t n = (if n ≤ 2 * (t % n) then t - t % n + n else t - t % n) ∧
    t ≤ he2Realized t n + (n - 1) ∧
    he2Realized t n ≤ t + (n - 1) := by
  have hmod : t % n < n := Nat.mod_lt _ hn
  have hble : t % n ≤ t := Nat.mod_le t n
  have hdm : n * (t / n) + t % n = t := Nat.div_add_mod t n
  have h1 : t + t % n = n * (t / n) + (t % n + t % n) := by omega
  have h2 : (t + t % n) / n = t / n + (t % n + t % n) / n := by
    rw [h1, Nat.mul_add_div hn]
  have h3 : (t % n + t % n) / n = if n ≤ t % n + t % n then 1 else 0 := by
    split
    · next hle =>
      have hsplit : t % n + t % n = (t % n + t % n - n) + n := by omega
      rw [hsplit, Nat.add_div_right _ hn, Nat.div_eq_of_lt (by omega)]
    · next hlt => exact Nat.div_eq_of_lt (by omega)
  have key : he2Realized t n = n * (t / n) + (if n ≤ t % n + t % n then n else 0) := by
    show n * ((t + t % n) / n) = _
    rw [h2, h3]
    split
    · ring
    · ring
  have hkey : he2Realized t n = if n ≤ 2 * (t % n) then t - t % n + n else t - t % n := by
    rw [key, two_mul]
    rcases Nat.lt_or_ge t n with hlt | hge
    all_goals
      generalize hq : t / n = q at hdm
      generalize hb : t % n = b at hmod hble hdm
      generalize hm : n * q = m at hdm
      split <;> omega
  refine ⟨?_, hkey, ?_, ?_⟩
  · rw [key]
    split
    · next h =>
      have hmul : n * (t / n) + n = n * (t / n + 1) := by ring
      rw [hmul]
      exact Nat.mul_mod_right _ _
    · next h =>
      rw [Nat.add_zero]
      exact Nat.mul_mod_right _ _
  · rw [hkey]
    generalize hb : t % n = b at hmod hble
    split <;> omega
  · rw [hkey]
    generalize hb : t % n = b at hmod hble
    split <;> omega

theorem he2Realized_characterization_witness :
    0 < 3 ∧
    (he2Realized 7 3 % 3 = 0 ∧
     he2Realized 7 3 = (if 3 ≤ 2 * (7 % 3) then 7 - 7 % 3 + 3 else 7 - 7 % 3) ∧
     7 ≤ he2Realized 7 3 + (3 - 1) ∧
     he2Realized 7 3 ≤ 7 + (3 - 1)) :=
  ⟨by decide, he2Realized_characterization 7 3 (by decide)⟩

/-- C9 counterexample: the claim states that a card string outside the valid
52-card alphabet makes the card-to-integer conversion report a typed error
with no numeric result. The conversion has no error channel at all: for the
invalid string Zz the CTOI map lookup misses and yields the zero value, and
cardsToInts returns the numeric result [0] to its caller. -/
theorem cardsToInts_unknown_card_no_error :
    cardsToInts ["Zz"] = [0] ∧ "Zz" ∉ ctoiPairs.map Prod.fst :=
  ⟨by decide, by decide⟩

/-- C9 (amended): for every card string outside the 52-card alphabet (the
key set of CTOI), the conversion silently maps the string to 0, the Go zero
value for a missing map key; no error is reported and the 0 flows into the
callers (HandEquity, PHole, EvalHand) as if it were a card. -/
theorem ctoi_unknown_card_is_zero (s : String) (h : s ∉ ctoiPairs.map Prod.fst) :
    CTOI s = 0 := by
  have hf : ctoiPairs.find? (fun p => p.1 == s) = none := by
    rw [List.find?_eq_none]
    intro p hp hbeq
    exact h (List.mem_map.mpr ⟨p, hp, by simpa using hbeq⟩)
  simp [CTOI, hf]

theorem ctoi_unknown_card_is_zero_witness :
    ("Q7" ∉ ctoiPairs.map Prod.fst) ∧ CTOI "Q7" = 0 :=
  ⟨by decide, ctoi_unknown_card_is_zero "Q7" (by decide)⟩

/-- C6: for every valid pair token the expander produces exactly 6 hands,
for every offsuit token (two distinct valid ranks followed by the letter o)
exactly 12 hands, for every suited token exactly 4 hands, and no result
contains the same unordered hand twice. Quantified over all rank characters
of the rank alphabet. -/
theorem handDist_strs_cardinalities :
    ∀ a ∈ ranks.data, ∀ b ∈ ranks.data,
      ((HandDist.mk (String.mk [a, a])).Strs.length = 6 ∧
        noRepeatedHand (HandDist.mk (String.mk [a, a])).Strs = true) ∧
      (a ≠ b →
        ((HandDist.mk (String.mk [a, b, 'o'])).Strs.length = 12 ∧
          noRepeatedHand (HandDist.mk (String.mk [a, b, 'o'])).Strs = true ∧
          (HandDist.mk (String.mk [a, b, 's'])).Strs.length = 4 ∧
          noRepeatedHand (HandDist.mk (String.mk [a, b, 's'])).Strs = true)) := by
  decide

theorem handDist_strs_cardinalities_witness :
    ('A' ∈ ranks.data) ∧ ('K' ∈ ranks.data) ∧
    (HandDist.mk (String.mk ['A', 'A'])).Strs.length = 6 ∧
    (HandDist.mk (String.mk ['A', 'K', 'o'])).Strs.length = 12 ∧
    (HandDist.mk (String.mk ['A', 'K', 's'])).Strs.length = 4 :=
  ⟨by decide, by decide,
    (handDist_strs_cardinalities 'A' (by decide) 'K' (by decide)).1.1,
    ((handDist_strs_cardinalities 'A' (by decide) 'K' (by decide)).2 (by decide)).1,
    ((handDist_strs_cardinalities 'A' (by decide) 'K' (by decide)).2 (by decide)).2.2.1⟩

/-- C7: for every ranking table, splitting the evaluation of a five-card
board plus a two-card hand into evalBoard followed by evalHand yields the
same rank as the single seven-lookup chain of EvalHand applied to the
concatenation of the board and the hand, in the same card order. -/
theorem evalHand_split_eq_EvalHand (hr : Nat → Nat) (bs hs : List String)
    (hb : bs.length = 5) (hh : hs.length = 2) :
    evalHand hr (evalBoard hr (cardsToInts bs)) (cardsToInts hs) =
      EvalHand hr (bs ++ hs) := by
  obtain ⟨a, b, c, d, e, rfl⟩ := listLen5 hb
  obtain ⟨f, g, rfl⟩ := listLen2 hh
  rfl

theorem evalHand_split_eq_EvalHand_witness :
    (["2c", "3c", "4c", "5c", "6c"] : List String).length = 5 ∧
    (["7c", "8c"] : List String).length = 2 ∧
    evalHand sampleTable (evalBoard sampleTable (cardsToInts ["2c", "3c", "4c", "5c", "6c"]))
        (cardsToInts ["7c", "8c"]) =
      EvalHand sampleTable (["2c", "3c", "4c", "5c", "6c"] ++ ["7c", "8c"]) :=
  ⟨rfl, rfl, evalHand_split_eq_EvalHand sampleTable _ _ rfl rfl⟩

lemma playLoop_eq_of_first (draw : ℚ) (prizes : List String) :
    ∀ (ps : List ℚ) (i k : Nat) (p : ℚ), ps.get? k = some p → draw < p →
      (∀ j q, j < k → ps.get? j = some q → q ≤ draw) →
      playLoop draw prizes i ps = prizes.get? (i + k) := by
  intro ps
  induction ps with
  | nil =>
    intro i k p hk hlt hmin
    simp at hk
  | cons x t ih =>
    intro i k p hk hlt hmin
    by_cases hx : draw < x
    · have hk0 : k = 0 := by
        by_contra h0
        have hj := hmin 0 x (Nat.pos_of_ne_zero h0) (by simp)
        exact absurd hx (not_lt.mpr hj)
      subst hk0
      simp [playLoop, hx]
    · have hk0 : k ≠ 0 := by
        intro h0
        subst h0
        simp at hk
        exact hx (hk ▸ hlt)
      obtain ⟨k2, rfl⟩ := Nat.exists_eq_succ_of_ne_zero hk0
      have hrec := ih (i + 1) k2 p (by simpa using hk) hlt
        (fun j q hj hq => hmin (j + 1) q (Nat.succ_lt_succ hj) (by simpa using hq))
      have harith : i + 1 + k2 = i + (k2 + 1) := by omega
      rw [harith] at hrec
      simpa [playLoop, hx] using hrec

lemma playLoop_eq_last (draw : ℚ) (prizes : List String) :
    ∀ (ps : List ℚ) (i : Nat), (∀ p ∈ ps, p ≤ draw) →
      playLoop draw prizes i ps = prizes.get? (prizes.length - 1) := by
  intro ps
  induction ps with
  | nil =>
    intro i h
    rfl
  | cons x t ih =>
    intro i h
    have hx : ¬ draw < x := not_lt.mpr (h x (by simp))
    simpa [playLoop, hx] using ih (i + 1) (fun p hp => h p (by simp [hp]))

lemma get?_pred_length_eq_getLast {α : Type} :
    ∀ (l : List α) (h : l ≠ []), l.get? (l.length - 1) = some (l.getLast h) := by
  intro l
  induction l with
  | nil =>
    intro h
    exact absurd rfl h
  | cons x t ih =>
    intro h
    cases t with
    | nil => rfl
    | cons y s =>
      have ht : y :: s ≠ [] := List.cons_ne_nil y s
      have hlen : (x :: y :: s).length - 1 = ((y :: s).length - 1) + 1 := by
        simp [List.length_cons]
      rw [hlen, List.get?_cons_succ, ih ht, List.getLast_cons ht]

/-- C8: for every distribution (entries in iteration order; zero weights
skipped, cumulative running sums recorded) whose built lottery is non-empty,
and every draw in [0,1): when entry i is the first whose cumulative
probability strictly exceeds the draw, Play returns that entry's prize, and
when no cumulative probability exceeds the draw, Play returns the last
prize. -/
theorem lottery_play_first_exceeding (dist : List (String × ℚ)) (draw : ℚ)
    (h0 : 0 ≤ draw) (h1 : draw < 1) (hne : (NewLottery dist).prizes ≠ []) :
    (∀ i p, (NewLottery dist).probs.get? i = some p → draw < p →
      (∀ j q, j < i → (NewLottery dist).probs.get? j = some q → q ≤ draw) →
      (NewLottery dist).Play draw = (NewLottery dist).prizes.get? i) ∧
    ((∀ p ∈ (NewLottery dist).probs, p ≤ draw) →
      (NewLottery dist).Play draw = some ((NewLottery dist).prizes.getLast hne)) := by
  constructor
  · intro i p hi hlt hmin
    have := playLoop_eq_of_first draw (NewLottery dist).prizes (NewLottery dist).probs
      0 i p hi hlt hmin
    simpa [Lottery.Play] using this
  · intro hall
    have := playLoop_eq_last draw (NewLottery dist).prizes (NewLottery dist).probs 0 hall
    rw [get?_pred_length_eq_getLast _ hne] at this
    simpa [Lottery.Play] using this

theorem lottery_play_first_exceeding_witness :
    ((0 : ℚ) ≤ 0) ∧ ((0 : ℚ) < 1) ∧
    (NewLottery [("a", (1 : ℚ)), ("b", (1 : ℚ))]).Play 0 =
      (NewLottery [("a", (1 : ℚ)), ("b", (1 : ℚ))]).prizes.get? 0 :=
  ⟨le_refl 0, by norm_num,
    (lottery_play_first_exceeding [("a", (1 : ℚ)), ("b", (1 : ℚ))] 0
        (le_refl 0) (by norm_num) (by simp [NewLottery, newLotteryAux])).1
      0 (0 + 1) rfl (by norm_num)
      (fun j q hj _ => absurd hj (Nat.not_lt_zero j))⟩

lemma newLotteryAux_all_zero :
    ∀ (dist : List (String × ℚ)) (s : ℚ), (∀ p ∈ dist, p.2 = 0) →
      newLotteryAux s dist = Lottery.mk [] [] := by
  intro dist
  induction dist with
  | nil =>
    intro s h
    rfl
  | cons e rest ih =>
    intro s h
    have he : e.2 = 0 := h e (by simp)
    obtain ⟨k, v⟩ := e
    simp only at he
    simp [newLotteryAux, he]
    exact ih s (fun p hp => h p (by simp [hp]))

/-- C10: for every distribution that is empty or all of whose weights are
zero, NewLottery yields empty probs and prizes, and Play on that lottery
reaches the final access prizes[len(prizes)-1] on an empty prizes sequence,
which panics (modelled by none): no label and no error value is returned. -/
theorem newLottery_all_zero_play_panics (dist : List (String × ℚ))
    (h : ∀ p ∈ dist, p.2 = 0) :
    NewLottery dist = Lottery.mk [] [] ∧
    ∀ draw : ℚ, (NewLottery dist).Play draw = none := by
  have hz : NewLottery dist = Lottery.mk [] [] := newLotteryAux_all_zero dist 0 h
  exact ⟨hz, fun draw => by rw [hz]; rfl⟩

theorem newLottery_all_zero_play_panics_witness :
    NewLottery [("x", (0 : ℚ))] = Lottery.mk [] [] ∧
    (NewLottery [("x", (0 : ℚ))]).Play (1 / 3) = none :=
  ⟨(newLottery_all_zero_play_panics [("x", (0 : ℚ))] (by simp)).1,
    (newLottery_all_zero_play_panics [("x", (0 : ℚ))] (by simp)).2 (1 / 3)⟩
